import Mathlib

/-!
Verification development for the plandex streaming-orchestration core.

The source consists of the server fan-out engine (`confirmProposal` in the
proposal package) and the client stream handler (`handleStream` inside
`Propose` in the cli lib package).  Pure Lean definitions below embed each
piece of the code shallowly; definitions whose Go counterpart is not part of
the two source files (the shared types package, the json codec, the client
chunk receiver) are modelled from the specification and say so in their doc
comments.
-/

namespace Plandex

/-! ## Chunk protocol and codec

Modelled from the spec: the wire unit of the BUILDING phase is the structured
record with a path field and a content field, serialized as a compact JSON
object.  The server encodes with the standard json marshaller and the client
decodes inside its chunk receiver; neither implementation is in the two
source files, so the codec below follows the words of the spec.  Escaping
covers the two structurally significant characters (the double quote and the
backslash); other characters pass through unchanged, which does not affect
the round-trip property the codec is used for.  -/

structure PlanChunk where
  path : String
  content : String
deriving DecidableEq, Repr

/-- Escape one character of a string literal. -/
def escChar (c : Char) : List Char :=
  if c = '\\' then ['\\', '\\']
  else if c = '"' then ['\\', '"']
  else [c]

/-- Escape a whole string for embedding between double quotes. -/
def escape : List Char → List Char
  | [] => []
  | c :: cs => escChar c ++ escape cs

/-- Scan a string literal up to its closing double quote, undoing escapes.
Returns the literal content and the remaining input. -/
def scanString : List Char → Option (List Char × List Char)
  | [] => none
  | c :: rest =>
    if c = '"' then some ([], rest)
    else if c = '\\' then
      match rest with
      | [] => none
      | d :: rest2 =>
        if d = '\\' || d = '"' then
          (scanString rest2).map (fun pr => (d :: pr.1, pr.2))
        else none
    else (scanString rest).map (fun pr => (c :: pr.1, pr.2))

/-- Consume an expected literal from the front of the input. -/
def expectLit : List Char → List Char → Option (List Char)
  | [], s => some s
  | _ :: _, [] => none
  | c :: cs, d :: ds => if c = d then expectLit cs ds else none

def litOpen : List Char := "\x7b\x22path\x22:".toList ++ ['"']

def litMid : List Char := ",\x22content\x22:".toList ++ ['"']

def litClose : List Char := ['\x7d']

/-- Modelled from the spec: the json encoding of a build-phase chunk, the
form produced by the marshaller the server calls on a PlanChunk value. -/
def encodeChunkChars (ch : PlanChunk) : List Char :=
  litOpen ++ escape ch.path.data ++ '"' :: litMid ++ escape ch.content.data ++ '"' :: litClose

/-- Modelled from the spec: the decoder applied by the client chunk receiver
to a build-phase chunk payload. -/
def decodeChunkChars (s : List Char) : Option PlanChunk :=
  match expectLit litOpen s with
  | none => none
  | some s1 =>
    match scanString s1 with
    | none => none
    | some (p, s2) =>
      match expectLit litMid s2 with
      | none => none
      | some s3 =>
        match scanString s3 with
        | none => none
        | some (c, s4) =>
          if s4 = litClose then some ⟨⟨p⟩, ⟨c⟩⟩ else none

def encodeChunk (ch : PlanChunk) : String := ⟨encodeChunkChars ch⟩

def decodeChunk (s : String) : Option PlanChunk := decodeChunkChars s.data

/-! ## Server data model

`types.Plan` and the proposal record live in the server types package, which
is outside the two source files; their fields below are modelled from the
spec (section 3) and from the field accesses made by `confirmProposal`.
Go maps are embedded as association lists with newest-binding-first lookup,
plus a plain list of keys for the set-valued finished map.  -/

/-- Lookup in an association list embedding a Go map, newest binding first. -/
def mget? (m : List (String × String)) (k : String) : Option String :=
  (m.find? (fun kv => kv.1 = k)).map (fun kv => kv.2)

/-- Lookup with the Go zero-value default for a missing string key. -/
def mget (m : List (String × String)) (k : String) : String :=
  (mget? m k).getD ""

/-- Map write: the new binding shadows any older one. -/
def mset (m : List (String × String)) (k v : String) : List (String × String) :=
  (k, v) :: m

/-- Set insert for a Go map used as a set of keys; idempotent. -/
def insertPath (l : List String) (p : String) : List String :=
  if p ∈ l then l else p :: l

/-- One entry of the request model context (`shared.ModelContextPart`). -/
structure ModelContextPart where
  filePath : String
  body : String
deriving DecidableEq

/-- The proposal record held by the server registry, restricted to the fields
`confirmProposal` reads: the finished flag, the reply content, and the
ordered file list of the parsed plan description. -/
structure Proposal where
  content : String
  planDescriptionFiles : List String
  isFinished : Bool
deriving DecidableEq

/-- The per-proposal `types.Plan` record.  Fields mirror the literal the
source builds: NumFiles, Files, FileErrs, FilesFinished, and the stage with
its cancellation handle; `expectedFiles` carries the file list the plan was
created from (the source stores its length as NumFiles), and `cancelInvoked`
records whether the shared cancellation scope was triggered. -/
structure Plan where
  proposalId : String
  numFiles : Nat
  expectedFiles : List String
  files : List (String × String)
  fileErrs : List (String × String)
  filesFinished : List String
  planErr : Option String
  planFinished : Bool
  cancelInvoked : Bool
deriving DecidableEq

/-- Modelled from the spec: `Plan.DidFinish` of the server types package,
true iff every path in the expected file list has an entry in the
finished-map. -/
def Plan.DidFinish (p : Plan) : Bool :=
  p.expectedFiles.all (fun q => p.filesFinished.contains q)

/-- Modelled from the spec: `Plan.Finish` of the server types package marks
the plan terminal. -/
def Plan.Finish (p : Plan) : Plan :=
  { p with planFinished := true }

/-- Modelled from the spec: `Plan.SetErr` of the server types package records
a plan-level error. -/
def Plan.SetErr (p : Plan) (msg : String) : Plan :=
  { p with planErr := some msg }

/-- The per-file `onError` closure of `confirmProposal`: records the error in
the FileErrs map of the plan and sets the plan-level error.  (The closure
also emits the error on the outbound stream; emissions are tracked by the
worker loop below.) -/
def fileOnError (p : Plan) (path msg : String) : Plan :=
  Plan.SetErr { p with fileErrs := mset p.fileErrs path msg } msg

/-! ## Server per-file worker loop

The worker goroutine of `confirmProposal` runs a select loop over the shared
context, the inactivity watchdog timer, and the next stream receive.  Its
inputs are embedded as a list of events: context cancellation, the timer
firing, a receive error, or a received stream response.  The loop mutates
the Plan record through the registry update operation (exclusive per the
spec) and emits callbacks on the outbound stream; both are returned. -/

/-- The delta of a streamed chat choice: either it carries no function call,
or it carries arguments of the write function call. -/
inductive ChoiceDelta where
  | noFunctionCall : ChoiceDelta
  | write (args : String) : ChoiceDelta
deriving DecidableEq

/-- One choice of a streamed response: a finish reason (empty string when the
response is an ordinary delta) and the delta payload. -/
structure StreamChoice where
  finishReason : String
  delta : ChoiceDelta
deriving DecidableEq

/-- A streamed chat completion response. -/
structure StreamResponse where
  choices : List StreamChoice
deriving DecidableEq

/-- An event observed by the worker select loop. -/
inductive WorkerEv where
  | ctxDone : WorkerEv
  | timerFired : WorkerEv
  | recvErr (msg : String) : WorkerEv
  | recvOk (r : StreamResponse) : WorkerEv
deriving DecidableEq

/-- A callback emitted on the outbound stream by the worker. -/
inductive Emit where
  | stream (content : String) : Emit
  | streamErr (msg : String) : Emit
  | streamFinished : Emit
deriving DecidableEq

def finishReasonFunctionCall : String := "function_call"

def streamTimeoutMsg : String := "stream timeout due to inactivity"

/-- The worker loop body of `confirmProposal` for one file path, run over a
list of observed events against the Plan record.  Returns the final plan and
the emitted stream callbacks in order. -/
def runWorker (path : String) : List WorkerEv → Plan → Plan × List Emit
  | [], p => (p, [])
  | ev :: evs, p =>
    match ev with
    | .ctxDone => (p, [])
    | .timerFired =>
      (fileOnError p path streamTimeoutMsg, [.streamErr streamTimeoutMsg])
    | .recvErr m =>
      (fileOnError p path ("Stream error: " ++ m), [.streamErr ("Stream error: " ++ m)])
    | .recvOk r =>
      match r.choices with
      | [] =>
        (fileOnError p path "Stream error: no choices", [.streamErr "Stream error: no choices"])
      | choice :: _ =>
        if choice.finishReason ≠ "" then
          if choice.finishReason = finishReasonFunctionCall then
            let p1 := { p with filesFinished := insertPath p.filesFinished path }
            if p1.DidFinish then (p1.Finish, [.streamFinished])
            else (p1, [])
          else
            let m := "Stream finished without write function call. Reason: " ++ choice.finishReason
            (fileOnError p path m, [.streamErr m])
        else
          match choice.delta with
          | .noFunctionCall => runWorker path evs p
          | .write args =>
            let p1 := { p with files := mset p.files path (mget p.files path ++ args) }
            let rec1 := runWorker path evs p1
            (rec1.1, .stream (encodeChunk ⟨path, args⟩) :: rec1.2)

/-! ## confirmProposal entry checks

`confirmProposal` first consults the proposal registry and refuses ids that
are unknown or whose proposal is still streaming, before creating the Plan
record or starting any worker.  The registries are embedded as association
lists of the process-wide maps; the GOENV test short-circuit of the source is
kept as an explicit flag. -/

/-- Registry lookup for proposals. -/
def pget? (m : List (String × Proposal)) (k : String) : Option Proposal :=
  (m.find? (fun kv => kv.1 = k)).map (fun kv => kv.2)

/-- The process-wide registries touched by `confirmProposal`. -/
structure Registry where
  proposals : List (String × Proposal)
  plans : List (String × Plan)
deriving DecidableEq

/-- The fresh Plan record `confirmProposal` stores for a finished proposal. -/
def newPlan (proposalId : String) (prop : Proposal) : Plan :=
  { proposalId := proposalId
    numFiles := prop.planDescriptionFiles.length
    expectedFiles := prop.planDescriptionFiles
    files := []
    fileErrs := []
    filesFinished := []
    planErr := none
    planFinished := false
    cancelInvoked := false }

/-- The entry logic of `confirmProposal`: the test-environment short-circuit,
the registry and finished-flag guards, then creation of the Plan record and
the list of file paths for which workers are launched.  Returns the result
of the call together with the registries after the call. -/
def confirmProposal (goEnvTest : Bool) (reg : Registry) (proposalId : String) :
    Except String (List String) × Registry :=
  if goEnvTest then (.ok [], reg)
  else
    match pget? reg.proposals proposalId with
    | none => (.error "proposal not found", reg)
    | some prop =>
      if ¬ prop.isFinished then (.error "proposal not finished", reg)
      else
        (.ok prop.planDescriptionFiles,
         { reg with plans := (proposalId, newPlan proposalId prop) :: reg.plans })

/-! ## Client stream handler

`handleStream` inside `Propose` dispatches each arriving stream event by the
current phase of the externally driven state machine.  The payload parsing
steps that live outside the source (json unmarshalling of the description,
the chunk receiver) are modelled from the spec as already-parsed event
constructors; everything else follows the source branch for branch.  The
channel close of `done` is counted, and the keywatch cancellation is a flag,
so the terminal behavior of the session is observable in the state. -/

/-- Parse outcome of the describing-phase payload.  Modelled from the spec:
json unmarshalling either yields a PlanDescription or fails. -/
structure PlanDescription where
  madePlan : Bool
  files : List String
deriving DecidableEq

inductive DescParse where
  | ok (d : PlanDescription) : DescParse
  | malformed : DescParse
deriving DecidableEq

/-- Outcome of the client chunk receiver for one BUILDING-phase payload.
Modelled from the spec: a decoded chunk either appends a content delta for a
path into the json buffers, or signals that a path finished. -/
inductive BuildChunkEv where
  | delta (path content : String) : BuildChunkEv
  | fileDone (path : String) : BuildChunkEv
deriving DecidableEq

/-- One invocation of `handleStream` after the proposal id announcement,
tagged by the phase the state machine is in. -/
inductive ClientEvent where
  | errEv (msg : String) : ClientEvent
  | reply (content : String) : ClientEvent
  | finishedMarker : ClientEvent
  | descMarker : ClientEvent
  | descPayload (p : DescParse) : ClientEvent
  | buildMarker : ClientEvent
  | buildChunk (c : BuildChunkEv) : ClientEvent
deriving DecidableEq

/-- The locals of `Propose` that `handleStream` reads and writes, restricted
to the orchestration state: the reply accumulator, the endedReply flag, the
two completion flags, the finished-path set, the json buffers, the parsed
description, the number of times the done channel was closed, the surfaced
error, and the keywatch cancellation flag. -/
structure ClientState where
  reply : String
  endedReply : Bool
  streamFinished : Bool
  filesFinished : Bool
  finishedByPath : List String
  jsonBuffers : List (String × String)
  desc : Option PlanDescription
  doneCloses : Nat
  errorSurfaced : Option String
  keywatchCancelled : Bool
deriving DecidableEq

def initClient : ClientState :=
  { reply := ""
    endedReply := false
    streamFinished := false
    filesFinished := false
    finishedByPath := []
    jsonBuffers := []
    desc := none
    doneCloses := 0
    errorSurfaced := none
    keywatchCancelled := false }

/-- The `onError` closure of `Propose`: print the error, cancel the
keywatch, close the done channel. -/
def clientOnError (st : ClientState) (msg : String) : ClientState :=
  { st with errorSurfaced := some msg
            keywatchCancelled := true
            doneCloses := st.doneCloses + 1 }

/-- Modelled from the spec: `receiveFileChunk` of the client lib decodes a
BUILDING-phase payload, appends content deltas for a path into the json
buffers, marks a path finished on its completion signal (a duplicate finish
is a no-op), and reports whether this payload completed writing a file. -/
def receiveFileChunk (st : ClientState) (c : BuildChunkEv) : Bool × ClientState :=
  match c with
  | .delta path content =>
    (false, { st with jsonBuffers := mset st.jsonBuffers path (mget st.jsonBuffers path ++ content) })
  | .fileDone path =>
    if path ∈ st.finishedByPath then (false, st)
    else (true, { st with finishedByPath := path :: st.finishedByPath })

/-- One step of `handleStream`, for events after the proposal id chunk.  The
BUILDING branch reads the description file list as the source does; traces in
which a BUILDING chunk precedes the description are not exercised by any
claim (the source would dereference a nil description there). -/
def clientStep (st : ClientState) (ev : ClientEvent) : ClientState :=
  match ev with
  | .errEv msg => clientOnError st msg
  | .reply content => { st with reply := st.reply ++ content }
  | .finishedMarker =>
    let st1 := if st.endedReply then st else { st with endedReply := true }
    let st2 := { st1 with streamFinished := true }
    if st2.filesFinished then { st2 with doneCloses := st2.doneCloses + 1 } else st2
  | .descMarker => { st with endedReply := true }
  | .descPayload pr =>
    match pr with
    | .malformed => clientOnError st "error parsing plan description"
    | .ok d =>
      let st1 := { st with desc := some d }
      if d.madePlan = true ∧ 0 < d.files.length then st1
      else { st1 with filesFinished := true }
  | .buildMarker => st
  | .buildChunk c =>
    let wr := receiveFileChunk st c
    match wr.2.desc with
    | none => wr.2
    | some d =>
      if wr.1 then
        if wr.2.finishedByPath.length = d.files.length then
          let st1 := { wr.2 with filesFinished := true }
          if st1.streamFinished then { st1 with doneCloses := st1.doneCloses + 1 } else st1
        else wr.2
      else wr.2

/-- Fold of `clientStep` over an event trace. -/
def clientRun (st : ClientState) (t : List ClientEvent) : ClientState :=
  t.foldl clientStep st

/-- The client state right after the describing phase parsed a description
that made a plan with file list fs: the output of the two describing-phase
steps of `handleStream`. -/
def afterDesc (fs : List String) : ClientState :=
  clientStep (clientStep initClient .descMarker) (.descPayload (.ok ⟨true, fs⟩))

/-- True on the terminal FINISHED marker event. -/
def isMarker (e : ClientEvent) : Bool :=
  match e with
  | .finishedMarker => true
  | _ => false

def hasMarker (t : List ClientEvent) : Bool := t.any isMarker

def markerCount (t : List ClientEvent) : Nat := t.countP isMarker

/-- The file paths whose completion signals appear in a trace, in order. -/
def donePaths (t : List ClientEvent) : List String :=
  t.filterMap (fun e =>
    match e with
    | .buildChunk (.fileDone path) => some path
    | _ => none)

/-- The events a BUILDING-phase session of `handleStream` consists of after
the describing phase: the FINISHED marker, the build-phase marker, content
deltas, and completion signals for expected paths. -/
def goodBuildEv (fs : List String) (e : ClientEvent) : Bool :=
  match e with
  | .finishedMarker => true
  | .buildMarker => true
  | .buildChunk (.delta _ _) => true
  | .buildChunk (.fileDone path) => decide (path ∈ fs)
  | _ => false

/-! ## Client mailbox (Event Serializer)

`handleStream` wraps the dispatch above in a guard built from the local
`running` flag and the capacity-one channel `queue`.  To examine overlapping
submissions the guard is embedded as an interleaving of two submitting
threads, each advanced by atomic steps that follow the source line by line:
the check of `running`, the synchronous processing of the handler body, and
the deferred drain of the queue.  `active` counts handler bodies currently
executing and `maxActive` its high-water mark.  The source never assigns
`running = true`; the step function reproduces that faithfully. -/

inductive Tid where
  | a : Tid
  | b : Tid
deriving DecidableEq

/-- Program counter of one submitting thread: about to check the guard,
executing the handler body, executing the deferred queue drain, or done. -/
inductive TPc where
  | start : TPc
  | proc : TPc
  | deferStep : TPc
  | done : TPc
deriving DecidableEq

structure MailboxConfig where
  running : Bool
  queue : List Nat
  pcA : TPc
  pcB : TPc
  active : Nat
  maxActive : Nat
deriving DecidableEq

def pcOf (c : MailboxConfig) (t : Tid) : TPc :=
  match t with
  | .a => c.pcA
  | .b => c.pcB

def setPc (c : MailboxConfig) (t : Tid) (pc : TPc) : MailboxConfig :=
  match t with
  | .a => { c with pcA := pc }
  | .b => { c with pcB := pc }

/-- The event value each thread submits. -/
def evOf (t : Tid) : Nat :=
  match t with
  | .a => 1
  | .b => 2

/-- One atomic step of thread t inside `handleStream`, as written in the
source: on entry read `running` and either send into the queue (capacity
one; a full queue blocks the send) or fall through into the handler body
without setting `running`; on finishing the body run the defer, which either
drains the queued event back into the handler body or clears `running`. -/
def mstep (c : MailboxConfig) (t : Tid) : MailboxConfig :=
  match pcOf c t with
  | .start =>
    if c.running then
      if c.queue.length < 1 then setPc { c with queue := c.queue ++ [evOf t] } t .done
      else c
    else
      setPc { c with active := c.active + 1, maxActive := max c.maxActive (c.active + 1) } t .proc
  | .proc => setPc c t .deferStep
  | .deferStep =>
    if c.queue.length > 0 then setPc { c with queue := c.queue.tail } t .proc
    else setPc { c with running := false, active := c.active - 1 } t .done
  | .done => c

def mrun (c : MailboxConfig) (ts : List Tid) : MailboxConfig :=
  ts.foldl mstep c

def minit : MailboxConfig :=
  { running := false, queue := [], pcA := .start, pcB := .start, active := 0, maxActive := 0 }

/-! ## Statement helpers -/

/-- Worker event list consisting only of write function-call deltas with the
given contents. -/
def writeEvents (cs : List String) : List WorkerEv :=
  cs.map (fun c => WorkerEv.recvOk ⟨[⟨"", .write c⟩]⟩)

/-- Concatenation of a list of strings in order. -/
def concatAll : List String → String
  | [] => ""
  | c :: cs => c ++ concatAll cs

/-- Invariant tying the BUILDING-phase client state to the trace processed so
far: m records whether the FINISHED marker has been seen and dp lists the
completion signals seen. -/
def BuildInv (fs : List String) (m : Bool) (dp : List String) (s : ClientState) : Prop :=
  s.desc = some ⟨true, fs⟩ ∧
  s.streamFinished = m ∧
  s.finishedByPath.Nodup ∧
  (∀ q, q ∈ s.finishedByPath ↔ q ∈ dp) ∧
  (∀ q ∈ s.finishedByPath, q ∈ fs) ∧
  s.filesFinished = decide (∀ q ∈ fs, q ∈ s.finishedByPath) ∧
  s.doneCloses = (if m = true ∧ (∀ q ∈ fs, q ∈ s.finishedByPath) then 1 else 0) ∧
  s.errorSurfaced = none

/-! ## Codec lemmas and claim C8 -/

theorem expectLit_append (lit rest : List Char) : expectLit lit (lit ++ rest) = some rest := by
  induction lit with
  | nil => rfl
  | cons c cs ih => simp [expectLit, ih]

theorem scanString_escape (s rest : List Char) :
    scanString (escape s ++ '"' :: rest) = some (s, rest) := by
  induction s with
  | nil =>
    rw [escape, List.nil_append, scanString.eq_def]
    simp
  | cons c cs ih =>
    by_cases h1 : c = '\\'
    · subst h1
      rw [escape, escChar]
      simp only [if_pos rfl, List.cons_append, List.append_assoc]
      rw [scanString.eq_def]
      simp [ih]
    · by_cases h2 : c = '"'
      · subst h2
        rw [escape, escChar]
        simp only [if_neg h1, if_pos rfl, List.cons_append, List.append_assoc]
        rw [scanString.eq_def]
        simp [ih]
      · rw [escape, escChar]
        simp only [if_neg h1, if_neg h2, List.cons_append, List.nil_append]
        rw [scanString.eq_def]
        simp [h1, h2, ih]

/-- Claim C8: encoding a build-phase chunk with string-valued path and
content to its wire form and decoding the wire form yields a structure
identical to the original chunk. -/
theorem chunk_codec_roundtrip (ch : PlanChunk) :
    decodeChunk (encodeChunk ch) = some ch := by
  show decodeChunkChars (encodeChunkChars ch) = some ch
  unfold encodeChunkChars decodeChunkChars
  simp only [List.cons_append, List.append_assoc, expectLit_append, scanString_escape]
  rfl

/-! ## Server worker theorems: claims C2, C3, C5, C9 -/

/-- Claim C2: a worker whose inactivity watchdog fires before the next chunk
arrives fails with the stream-timeout error through the per-file error path:
the error is recorded under that path in the FileErrs map (and the
plan-level error is set), the outbound stream reports it, and everything
else is untouched - the content and finished maps are unchanged and the
shared cancellation scope is not invoked, so no other in-flight worker is
cancelled and the session continues. -/
theorem worker_timeout_scoped (p : Plan) (path : String) (evs : List WorkerEv) :
    runWorker path (.timerFired :: evs) p =
      (fileOnError p path streamTimeoutMsg, [.streamErr streamTimeoutMsg]) ∧
    (fileOnError p path streamTimeoutMsg).fileErrs = (path, streamTimeoutMsg) :: p.fileErrs ∧
    (fileOnError p path streamTimeoutMsg).files = p.files ∧
    (fileOnError p path streamTimeoutMsg).filesFinished = p.filesFinished ∧
    (fileOnError p path streamTimeoutMsg).planFinished = p.planFinished ∧
    (fileOnError p path streamTimeoutMsg).cancelInvoked = p.cancelInvoked :=
  ⟨rfl, rfl, rfl, rfl, rfl, rfl⟩

/-- Claim C3 fails on the code: the per-file error path records the error but
never adds the path to the finished map, and the aggregator completion check
consults only the finished map, so a plan whose single expected file errs
has every path in a terminal condition yet the completion check still
reports false and the plan is never finished. -/
theorem errored_path_not_counted_cx :
    mget? (runWorker "a.txt" [.timerFired] (newPlan "p1" ⟨"", ["a.txt"], true⟩)).1.fileErrs
        "a.txt" = some streamTimeoutMsg ∧
    (runWorker "a.txt" [.timerFired] (newPlan "p1" ⟨"", ["a.txt"], true⟩)).1.filesFinished = [] ∧
    Plan.DidFinish (runWorker "a.txt" [.timerFired] (newPlan "p1" ⟨"", ["a.txt"], true⟩)).1
        = false ∧
    (runWorker "a.txt" [.timerFired] (newPlan "p1" ⟨"", ["a.txt"], true⟩)).1.planFinished
        = false ∧
    (runWorker "a.txt" [.timerFired] (newPlan "p1" ⟨"", ["a.txt"], true⟩)).2
        = [.streamErr streamTimeoutMsg] :=
  ⟨rfl, rfl, rfl, rfl, rfl⟩

/-- Claim C3 amended: a path that reports a per-file error has the error
recorded in the error map of the Plan and the plan-level error set, but the
errored path is not added to the finished map and does not count toward the
completion check, whose value the error leaves unchanged; the error is
surfaced through the stream callback at once rather than when the session
drains. -/
theorem errored_path_recorded_not_counted (p : Plan) (path msg : String) :
    mget? (fileOnError p path msg).fileErrs path = some msg ∧
    (fileOnError p path msg).planErr = some msg ∧
    (fileOnError p path msg).filesFinished = p.filesFinished ∧
    Plan.DidFinish (fileOnError p path msg) = Plan.DidFinish p := by
  refine ⟨?_, rfl, rfl, rfl⟩
  simp [mget?, fileOnError, mset, Plan.SetErr]

theorem mget_mset_same (m : List (String × String)) (k v : String) :
    mget (mset m k v) k = v := by
  simp [mget, mget?, mset]

/-- Claim C5: running a worker over any sequence of write function-call
deltas accumulates, for its path, exactly the concatenation of the delta
contents in emission order; in particular deltas a, b, c accumulate abc. -/
theorem content_accumulates (path : String) (p : Plan) (cs : List String) :
    mget (runWorker path (writeEvents cs) p).1.files path
        = mget p.files path ++ concatAll cs ∧
    mget (runWorker path (writeEvents ["a", "b", "c"]) p).1.files path
        = mget p.files path ++ "abc" := by
  have gen : ∀ (cs : List String) (p : Plan),
      mget (runWorker path (writeEvents cs) p).1.files path
        = mget p.files path ++ concatAll cs := by
    intro cs
    induction cs with
    | nil =>
      intro p
      simp [writeEvents, runWorker, concatAll]
    | cons c cs ih =>
      intro p
      rw [writeEvents, List.map_cons, runWorker]
      dsimp only
      rw [if_neg (show ¬("" ≠ "") by simp)]
      dsimp only
      rw [← writeEvents]
      rw [ih, mget_mset_same, concatAll, String.append_assoc]
  exact ⟨gen cs p, by rw [gen ["a", "b", "c"] p]; rfl⟩

/-- Claim C9: a streamed response whose first choice carries no finish reason
and no write function-call delta is skipped: the worker neither appends file
content nor reports an error, and continues with the remaining events
unchanged. -/
theorem non_write_payload_skipped (path : String) (p : Plan) (evs : List WorkerEv)
    (rest : List StreamChoice) :
    runWorker path (.recvOk ⟨⟨"", .noFunctionCall⟩ :: rest⟩ :: evs) p
      = runWorker path evs p := rfl

/-! ## confirmProposal entry theorems: claim C10 -/

/-- Claim C10: outside the test environment, confirming a proposal id that is
not registered returns the not-found error, and confirming one whose
proposal is not yet finished returns the not-finished error; in both cases
the call returns before any Plan record is created and before any worker
path is produced, with the registries unchanged. -/
theorem confirm_guards (reg : Registry) (pid : String) :
    (pget? reg.proposals pid = none →
      confirmProposal false reg pid = (.error "proposal not found", reg)) ∧
    (∀ prop : Proposal, pget? reg.proposals pid = some prop → prop.isFinished = false →
      confirmProposal false reg pid = (.error "proposal not finished", reg)) := by
  constructor
  · intro h
    simp [confirmProposal, h]
  · intro prop h hf
    simp [confirmProposal, h, hf]

theorem confirm_guards_witness :
    confirmProposal false ⟨[], []⟩ "p1" = (.error "proposal not found", ⟨[], []⟩) ∧
    confirmProposal false ⟨[("p2", ⟨"", [], false⟩)], []⟩ "p2"
      = (.error "proposal not finished", ⟨[("p2", ⟨"", [], false⟩)], []⟩) :=
  ⟨(confirm_guards ⟨[], []⟩ "p1").1 rfl,
   (confirm_guards ⟨[("p2", ⟨"", [], false⟩)], []⟩ "p2").2 ⟨"", [], false⟩ rfl rfl⟩

/-! ## Mailbox theorem: claim C1 -/

/-- Claim C1 fails on the code: `handleStream` declares, checks and resets
the `running` guard but never sets it to true, so a submit that arrives
while a handler is active also passes the guard and enters the handler body
instead of being stored in the pending slot.  Interleaving the entry steps
of two submitting threads reaches a configuration with two handler bodies
active at once and an empty pending queue, both threads inside the body. -/
theorem mailbox_guard_never_engages :
    (mrun minit [Tid.a, Tid.b]).active = 2 ∧
    (mrun minit [Tid.a, Tid.b]).maxActive = 2 ∧
    (mrun minit [Tid.a, Tid.b]).queue = [] ∧
    pcOf (mrun minit [Tid.a, Tid.b]) Tid.a = TPc.proc ∧
    pcOf (mrun minit [Tid.a, Tid.b]) Tid.b = TPc.proc :=
  ⟨rfl, rfl, rfl, rfl, rfl⟩

/-! ## Client describing-phase theorems: claims C6, C7 -/

/-- Claim C6: a DESCRIBING-phase payload whose deserialization fails makes
the handler stop with the malformed-description error: the error is
surfaced, the keywatch is cancelled and the done channel is closed (tearing
the session down), and no description - not even a partial one - is stored;
the finished bookkeeping is untouched. -/
theorem malformed_description_aborts (st : ClientState) :
    (clientStep st (.descPayload .malformed)).errorSurfaced
        = some "error parsing plan description" ∧
    (clientStep st (.descPayload .malformed)).keywatchCancelled = true ∧
    (clientStep st (.descPayload .malformed)).doneCloses = st.doneCloses + 1 ∧
    (clientStep st (.descPayload .malformed)).desc = st.desc ∧
    (clientStep st (.descPayload .malformed)).filesFinished = st.filesFinished ∧
    (clientStep st (.descPayload .malformed)).finishedByPath = st.finishedByPath :=
  ⟨rfl, rfl, rfl, rfl, rfl, rfl⟩

/-- Claim C7: a parsed description that declares no plan was made, or an
empty file list, immediately completes the file-writing sub-phase: the
handler stores the description and sets the filesFinished flag, changing
nothing else - no error is surfaced and no building-phase work is needed. -/
theorem no_files_completes_build (st : ClientState) (d : PlanDescription)
    (h : ¬ (d.madePlan = true ∧ 0 < d.files.length)) :
    clientStep st (.descPayload (.ok d))
      = { st with desc := some d, filesFinished := true } := by
  simp only [clientStep, if_neg h]

/-! ## Global completion: claim C4

The lemmas below characterize the three BUILDING-phase steps of
`handleStream`, establish an invariant of the client state along any
well-formed building trace, and derive the exactly-once close of the done
channel. -/

theorem clientStep_marker (s : ClientState) :
    clientStep s .finishedMarker
      = { s with
          endedReply := true
          streamFinished := true
          doneCloses := s.doneCloses + (if s.filesFinished = true then 1 else 0) } := by
  cases s with
  | mk reply endedReply streamFinished filesFinished finishedByPath jsonBuffers
      desc doneCloses errorSurfaced keywatchCancelled =>
    cases endedReply <;> cases filesFinished <;> rfl

theorem clientStep_delta (s : ClientState) (a b : String) :
    clientStep s (.buildChunk (.delta a b))
      = { s with jsonBuffers := mset s.jsonBuffers a (mget s.jsonBuffers a ++ b) } := by
  cases s with
  | mk reply endedReply streamFinished filesFinished finishedByPath jsonBuffers
      desc doneCloses errorSurfaced keywatchCancelled =>
    cases desc <;> rfl

theorem clientStep_fileDone_dup (s : ClientState) (q : String)
    (hq : q ∈ s.finishedByPath) :
    clientStep s (.buildChunk (.fileDone q)) = s := by
  unfold clientStep receiveFileChunk
  dsimp only
  rw [if_pos hq]
  cases hd : s.desc
  · rfl
  · rfl

theorem donePaths_cons (e : ClientEvent) (t : List ClientEvent) :
    donePaths (e :: t) = donePaths [e] ++ donePaths t := by
  cases e with
  | buildChunk c => cases c <;> rfl
  | errEv msg => rfl
  | reply content => rfl
  | finishedMarker => rfl
  | descMarker => rfl
  | descPayload pr => rfl
  | buildMarker => rfl

theorem nodup_subset_length_iff {l fs : List String} (hl : l.Nodup) (hfs : fs.Nodup)
    (hsub : ∀ q ∈ l, q ∈ fs) : l.length = fs.length ↔ ∀ q ∈ fs, q ∈ l := by
  have hcl : l.toFinset.card = l.length := List.toFinset_card_of_nodup hl
  have hcf : fs.toFinset.card = fs.length := List.toFinset_card_of_nodup hfs
  have hss : l.toFinset ⊆ fs.toFinset := by
    intro x hx
    exact List.mem_toFinset.mpr (hsub x (List.mem_toFinset.mp hx))
  constructor
  · intro hlen q hq
    have heq : l.toFinset = fs.toFinset :=
      Finset.eq_of_subset_of_card_le hss (by omega)
    have hq2 : q ∈ fs.toFinset := List.mem_toFinset.mpr hq
    rw [← heq] at hq2
    exact List.mem_toFinset.mp hq2
  · intro hcov
    have hss2 : fs.toFinset ⊆ l.toFinset := by
      intro x hx
      exact List.mem_toFinset.mpr (hcov x (List.mem_toFinset.mp hx))
    have heq : l.toFinset = fs.toFinset := Finset.Subset.antisymm hss hss2
    have hceq : l.toFinset.card = fs.toFinset.card := by rw [heq]
    omega

theorem buildStep_inv {fs : List String} {m : Bool} {dp : List String}
    {s : ClientState} (hfs : fs.Nodup) (e : ClientEvent)
    (he : goodBuildEv fs e = true)
    (hm : isMarker e = true → m = false)
    (h : BuildInv fs m dp s) :
    BuildInv fs (m || isMarker e) (dp ++ donePaths [e]) (clientStep s e) := by
  obtain ⟨hdesc, hsf, hnd, hmem, hsubfs, hff, hdc, herr⟩ := h
  cases e with
  | errEv msg => exact absurd he (by simp [goodBuildEv])
  | reply content => exact absurd he (by simp [goodBuildEv])
  | descMarker => exact absurd he (by simp [goodBuildEv])
  | descPayload pr => exact absurd he (by simp [goodBuildEv])
  | buildMarker =>
    rw [show clientStep s ClientEvent.buildMarker = s from rfl,
      show isMarker ClientEvent.buildMarker = false from rfl, Bool.or_false,
      show donePaths [ClientEvent.buildMarker] = [] from rfl, List.append_nil]
    exact ⟨hdesc, hsf, hnd, hmem, hsubfs, hff, hdc, herr⟩
  | finishedMarker =>
    have hm0 : m = false := hm rfl
    subst hm0
    rw [clientStep_marker,
      show isMarker ClientEvent.finishedMarker = true from rfl, Bool.or_true,
      show donePaths [ClientEvent.finishedMarker] = [] from rfl, List.append_nil]
    refine ⟨hdesc, rfl, hnd, hmem, hsubfs, hff, ?_, herr⟩
    rw [hdc, hff]
    by_cases hcov : ∀ q ∈ fs, q ∈ s.finishedByPath
    · rw [if_neg (show ¬(false = true ∧ ∀ q ∈ fs, q ∈ s.finishedByPath) by simp),
        if_pos (show decide (∀ q ∈ fs, q ∈ s.finishedByPath) = true from decide_eq_true hcov),
        if_pos (show true = true ∧ ∀ q ∈ fs, q ∈ s.finishedByPath from ⟨rfl, hcov⟩)]
    · rw [if_neg (show ¬(false = true ∧ ∀ q ∈ fs, q ∈ s.finishedByPath) by simp),
        if_neg (show ¬ decide (∀ q ∈ fs, q ∈ s.finishedByPath) = true by simpa using hcov),
        if_neg (show ¬(true = true ∧ ∀ q ∈ fs, q ∈ s.finishedByPath) from fun hc => hcov hc.2)]
  | buildChunk c =>
    cases c with
    | delta a b =>
      rw [clientStep_delta,
        show isMarker (ClientEvent.buildChunk (.delta a b)) = false from rfl, Bool.or_false,
        show donePaths [ClientEvent.buildChunk (.delta a b)] = [] from rfl, List.append_nil]
      exact ⟨hdesc, hsf, hnd, hmem, hsubfs, hff, hdc, herr⟩
    | fileDone q =>
      have hqfs : q ∈ fs := by simpa [goodBuildEv] using he
      rw [show isMarker (ClientEvent.buildChunk (.fileDone q)) = false from rfl, Bool.or_false,
        show donePaths [ClientEvent.buildChunk (.fileDone q)] = [q] from rfl]
      by_cases hqmem : q ∈ s.finishedByPath
      · rw [clientStep_fileDone_dup s q hqmem]
        refine ⟨hdesc, hsf, hnd, ?_, hsubfs, hff, hdc, herr⟩
        intro x
        constructor
        · intro hx
          exact List.mem_append_left _ ((hmem x).mp hx)
        · intro hx
          rcases List.mem_append.mp hx with hx | hx
          · exact (hmem x).mpr hx
          · rw [List.mem_singleton] at hx
            subst hx
            exact hqmem
      · -- the path is newly finished
        have hcovold : ¬ ∀ x ∈ fs, x ∈ s.finishedByPath := by
          intro hc
          exact hqmem (hc q hqfs)
        have hnd' : (q :: s.finishedByPath).Nodup := List.nodup_cons.mpr ⟨hqmem, hnd⟩
        have hsubfs' : ∀ x ∈ q :: s.finishedByPath, x ∈ fs := by
          intro x hx
          rcases List.mem_cons.mp hx with hx | hx
          · subst hx
            exact hqfs
          · exact hsubfs x hx
        have hmem' : ∀ x, x ∈ q :: s.finishedByPath ↔ x ∈ dp ++ [q] := by
          intro x
          constructor
          · intro hx
            rcases List.mem_cons.mp hx with hx | hx
            · subst hx
              exact List.mem_append_right _ (List.mem_singleton_self _)
            · exact List.mem_append_left _ ((hmem x).mp hx)
          · intro hx
            rcases List.mem_append.mp hx with hx | hx
            · exact List.mem_cons_of_mem _ ((hmem x).mpr hx)
            · rw [List.mem_singleton] at hx
              subst hx
              exact List.mem_cons_self _ _
        have hlen_iff := nodup_subset_length_iff hnd' hfs hsubfs'
        have hstep : clientStep s (.buildChunk (.fileDone q)) =
            (if (q :: s.finishedByPath).length = fs.length then
               (if s.streamFinished = true then
                  { s with
                    finishedByPath := q :: s.finishedByPath
                    filesFinished := true
                    doneCloses := s.doneCloses + 1 }
                else
                  { s with
                    finishedByPath := q :: s.finishedByPath
                    filesFinished := true })
             else { s with finishedByPath := q :: s.finishedByPath }) := by
          unfold clientStep receiveFileChunk
          dsimp only
          rw [if_neg hqmem]
          dsimp only
          rw [hdesc]
          dsimp only
          rw [if_pos (show true = true from rfl)]
        rw [hstep]
        by_cases hlen : (q :: s.finishedByPath).length = fs.length
        · have hcovnew : ∀ x ∈ fs, x ∈ q :: s.finishedByPath := hlen_iff.mp hlen
          rw [if_pos hlen]
          by_cases hsfv : s.streamFinished = true
          · rw [if_pos hsfv]
            refine ⟨hdesc, hsf, hnd', hmem', hsubfs', ?_, ?_, herr⟩
            · exact (decide_eq_true hcovnew).symm
            · rw [hdc]
              have hmt : m = true := by rw [← hsf]; exact hsfv
              rw [if_neg (show ¬(m = true ∧ ∀ x ∈ fs, x ∈ s.finishedByPath) from
                    fun hc => hcovold hc.2),
                 if_pos (show m = true ∧ ∀ x ∈ fs, x ∈ q :: s.finishedByPath from
                    ⟨hmt, hcovnew⟩)]
          · rw [if_neg hsfv]
            refine ⟨hdesc, hsf, hnd', hmem', hsubfs', ?_, ?_, herr⟩
            · exact (decide_eq_true hcovnew).symm
            · rw [hdc]
              have hmf : m = false := by
                cases hmz : m
                · rfl
                · rw [← hsf] at hmz
                  exact absurd hmz hsfv
              simp [hmf]
        · have hcovnew : ¬ ∀ x ∈ fs, x ∈ q :: s.finishedByPath := by
            intro hc
            exact hlen (hlen_iff.mpr hc)
          rw [if_neg hlen]
          refine ⟨hdesc, hsf, hnd', hmem', hsubfs', ?_, ?_, herr⟩
          · show s.filesFinished = decide (∀ x ∈ fs, x ∈ q :: s.finishedByPath)
            rw [hff, decide_eq_false hcovold, decide_eq_false hcovnew]
          · show s.doneCloses
              = if m = true ∧ ∀ x ∈ fs, x ∈ q :: s.finishedByPath then 1 else 0
            rw [hdc,
              if_neg (show ¬(m = true ∧ ∀ x ∈ fs, x ∈ s.finishedByPath) from
                fun hc => hcovold hc.2),
              if_neg (show ¬(m = true ∧ ∀ x ∈ fs, x ∈ q :: s.finishedByPath) from
                fun hc => hcovnew hc.2)]

theorem buildRun_inv {fs : List String} (hfs : fs.Nodup) :
    ∀ (t : List ClientEvent) (m : Bool) (dp : List String) (s : ClientState),
      t.all (goodBuildEv fs) = true →
      markerCount t + (if m = true then 1 else 0) ≤ 1 →
      BuildInv fs m dp s →
      BuildInv fs (m || hasMarker t) (dp ++ donePaths t) (clientRun s t) := by
  intro t
  induction t with
  | nil =>
    intro m dp s _ _ h
    simpa [clientRun, hasMarker, donePaths] using h
  | cons e t ih =>
    intro m dp s hall hcnt h
    rw [List.all_cons, Bool.and_eq_true] at hall
    obtain ⟨he, hallt⟩ := hall
    have hme : isMarker e = true → m = false := by
      intro hie
      cases hmz : m
      · rfl
      · rw [markerCount, List.countP_cons, hie, hmz] at hcnt
        simp at hcnt
    have hstep := buildStep_inv hfs e he hme h
    have hcnt' : markerCount t + (if (m || isMarker e) = true then 1 else 0) ≤ 1 := by
      rw [markerCount, List.countP_cons] at hcnt
      rw [markerCount]
      cases hie : isMarker e
      · rw [Bool.or_false]
        rw [hie] at hcnt
        cases m <;> omega
      · have hm0 : m = false := hme hie
        subst hm0
        rw [hie] at hcnt
        rw [Bool.false_or]
        omega
    have hrest := ih (m || isMarker e) (dp ++ donePaths [e]) (clientStep s e) hallt hcnt' hstep
    rw [show clientRun s (e :: t) = clientRun (clientStep s e) t from rfl,
      show hasMarker (e :: t) = (isMarker e || hasMarker t) from rfl,
      donePaths_cons, ← Bool.or_assoc, ← List.append_assoc]
    exact hrest

theorem afterDesc_nil :
    afterDesc [] = { initClient with
      endedReply := true
      filesFinished := true
      desc := some ⟨true, []⟩ } := rfl

theorem afterDesc_cons (a : String) (as : List String) :
    afterDesc (a :: as) = { initClient with
      endedReply := true
      desc := some ⟨true, a :: as⟩ } := by
  unfold afterDesc clientStep
  dsimp only
  split
  · rfl
  · rename_i hcond
    exact absurd ⟨rfl, Nat.succ_pos as.length⟩ hcond

theorem afterDesc_inv (fs : List String) : BuildInv fs false [] (afterDesc fs) := by
  cases fs with
  | nil =>
    rw [afterDesc_nil]
    exact ⟨rfl, rfl, List.nodup_nil, fun q => Iff.rfl, by simp [initClient], by decide,
      by decide, rfl⟩
  | cons a as =>
    rw [afterDesc_cons]
    refine ⟨rfl, rfl, List.nodup_nil, fun q => Iff.rfl, by simp [initClient], ?_, ?_, rfl⟩
    · have hno : ¬ ∀ q ∈ a :: as, q ∈ ([] : List String) := by
        intro hc
        exact absurd (hc a (List.mem_cons_self a as)) (List.not_mem_nil a)
      show false = decide (∀ q ∈ a :: as, q ∈ ([] : List String))
      rw [decide_eq_false hno]
    · show 0 = if false = true ∧ ∀ q ∈ a :: as, q ∈ ([] : List String) then 1 else 0
      rw [if_neg (show ¬(false = true ∧ ∀ q ∈ a :: as, q ∈ ([] : List String)) by simp)]

/-- Claim C4: along any BUILDING-phase trace of `handleStream` in which the
top-level FINISHED marker appears at most once and every completion signal
names an expected path, the done channel has been closed exactly once at the
end of every prefix in which both the marker and the completion of the last
expected file have been observed, and zero times at the end of every other
prefix; applied across the prefixes of a trace this says the terminal close
of the session fires exactly once, at the moment the second of the two
termination sources arrives, in either order. -/
theorem global_completion_close (fs : List String) (t : List ClientEvent)
    (hfs : fs.Nodup)
    (hgood : t.all (goodBuildEv fs) = true)
    (hcnt : markerCount t ≤ 1) :
    ∀ pre suf : List ClientEvent, t = pre ++ suf →
      (clientRun (afterDesc fs) pre).doneCloses =
        (if hasMarker pre = true ∧ (∀ q ∈ fs, q ∈ donePaths pre) then 1 else 0) := by
  intro pre suf ht
  subst ht
  rw [List.all_append, Bool.and_eq_true] at hgood
  have hgp : pre.all (goodBuildEv fs) = true := hgood.1
  have hcp : markerCount pre ≤ 1 := by
    rw [markerCount, List.countP_append] at hcnt
    rw [markerCount]
    omega
  have hrun := buildRun_inv hfs pre false [] (afterDesc fs) hgp
    (by simpa using hcp) (afterDesc_inv fs)
  obtain ⟨_, _, _, hmem, _, _, hdc, _⟩ := hrun
  rw [hdc]
  have hiff : ((false || hasMarker pre) = true ∧
        ∀ q ∈ fs, q ∈ (clientRun (afterDesc fs) pre).finishedByPath)
      ↔ (hasMarker pre = true ∧ ∀ q ∈ fs, q ∈ donePaths pre) := by
    rw [Bool.false_or]
    constructor
    · rintro ⟨h1, h2⟩
      refine ⟨h1, fun q hq => ?_⟩
      have := (hmem q).mp (h2 q hq)
      simpa using this
    · rintro ⟨h1, h2⟩
      refine ⟨h1, fun q hq => (hmem q).mpr ?_⟩
      simpa using h2 q hq
  exact if_congr hiff rfl rfl

theorem global_completion_close_witness :
    (clientRun (afterDesc ["a.txt", "b.txt"])
        [.buildChunk (.fileDone "a.txt"), .finishedMarker,
         .buildChunk (.fileDone "b.txt")]).doneCloses = 1 := by
  have h := global_completion_close ["a.txt", "b.txt"]
    [.buildChunk (.fileDone "a.txt"), .finishedMarker, .buildChunk (.fileDone "b.txt")]
    (by decide) (by decide) (by decide)
    [.buildChunk (.fileDone "a.txt"), .finishedMarker, .buildChunk (.fileDone "b.txt")]
    [] (by simp)
  rw [h]
  decide

theorem no_files_completes_build_witness :
    ¬ ((false : Bool) = true ∧ 0 < ([] : List String).length) ∧
    clientStep initClient (.descPayload (.ok ⟨false, []⟩))
      = { initClient with desc := some ⟨false, []⟩, filesFinished := true } :=
  ⟨by decide, no_files_completes_build initClient ⟨false, []⟩ (by decide)⟩

end Plandex
